import Mathlib

/-!
Verification of the Shamir secret-sharing repository (package `sss`).

The repository's computational core is `src/math.go` (polynomial evaluation `f`,
`multiply_polynomials`, `add_polynomials`, `full_lagrange`) together with a
session layer (`src/sss.go`).  The GF(256) field primitives `gf256_add`,
`gf256_sub`, `gf256_mul`, `gf256_div` are referenced by `src/math.go` but their
definitions are not part of the sources; they are modelled here from the spec
(section 4.1).  The session operations `Recover`, `Compute`/`IsValid` are
likewise not in the sources (only a reference description in comments and a
test that calls them) and are modelled from the spec (section 4.4).
-/

set_option maxRecDepth 100000

namespace SSS

/-! ### GF(256) primitives on `Nat`

Modelled from the spec, section 4.1: multiplication is "polynomial
multiplication modulo a fixed irreducible degree-8 polynomial over GF(2)"; the
spec leaves the modulus open ("any standard choice is acceptable provided it is
used identically by every component"), so we fix the standard polynomial
x^8 + x^4 + x^3 + x + 1 (0x11b) throughout. -/

/-- Multiplication by x in GF(256): shift left and reduce by 0x11b. -/
def xtime (a : Nat) : Nat := if 128 ≤ a then ((a * 2) % 256) ^^^ 27 else a * 2

/-- Shift-and-add (Russian peasant) product; the fuel bounds the recursion on
the bits of `b` (8 suffices for bytes). -/
def gmulFuel : Nat → Nat → Nat → Nat
  | 0, _, _ => 0
  | fuel+1, a, b => (if b % 2 = 1 then a else 0) ^^^ gmulFuel fuel (xtime a) (b / 2)

/-- GF(256) product of two bytes. -/
def gmulN (a b : Nat) : Nat := gmulFuel 8 a b

/-- GF(256) inverse of a byte, computed as a^254 (Fermat); the spec describes
the inverse abstractly ("every nonzero element has exactly one") and leaves the
realisation open. `ginvN 0 = 0`. -/
def ginvN (a : Nat) : Nat :=
  let a2 := gmulN a a
  let a4 := gmulN a2 a2
  let a8 := gmulN a4 a4
  let a16 := gmulN a8 a8
  let a32 := gmulN a16 a16
  let a64 := gmulN a32 a32
  let a128 := gmulN a64 a64
  gmulN a2 (gmulN a4 (gmulN a8 (gmulN a16 (gmulN a32 (gmulN a64 a128)))))

lemma xor_lt_256 {x y : Nat} (hx : x < 256) (hy : y < 256) : x ^^^ y < 256 :=
  Nat.xor_lt_two_pow (n := 8) hx hy

lemma xtime_lt {a : Nat} (h : a < 256) : xtime a < 256 := by
  unfold xtime
  split
  · exact xor_lt_256 (Nat.mod_lt _ (by omega)) (by omega)
  · omega

lemma xtime_zero : xtime 0 = 0 := rfl

lemma gmulFuel_succ (f a b : Nat) :
    gmulFuel (f+1) a b = (if b % 2 = 1 then a else 0) ^^^ gmulFuel f (xtime a) (b / 2) := rfl

lemma gmulFuel_zero_right (f a : Nat) : gmulFuel f a 0 = 0 := by
  induction f generalizing a with
  | zero => rfl
  | succ f ih => rw [gmulFuel_succ]; simp [ih]

lemma gmulFuel_zero_left (f b : Nat) : gmulFuel f 0 b = 0 := by
  induction f generalizing b with
  | zero => rfl
  | succ f ih => rw [gmulFuel_succ, xtime_zero, ih]; simp

lemma gmulFuel_lt {a : Nat} (f b : Nat) (h : a < 256) : gmulFuel f a b < 256 := by
  induction f generalizing a b with
  | zero => simp [gmulFuel]
  | succ f ih =>
      rw [gmulFuel_succ]
      refine xor_lt_256 ?_ (ih _ (xtime_lt h))
      split <;> omega

lemma gmulN_lt {a b : Nat} (h : a < 256) : gmulN a b < 256 := gmulFuel_lt 8 b h

lemma ginvN_lt {a : Nat} (h : a < 256) : ginvN a < 256 := by
  unfold ginvN; exact gmulN_lt (gmulN_lt h)

/-! ### Byte decomposition into powers of two

Every byte is the XOR of the masks `a &&& 2^i`; this lets XOR-linear
properties be reduced to the nine base points 0, 1, 2, ..., 128. -/

lemma byte_decomp : ∀ a, a < 256 →
    a = a &&& 1 ^^^ (a &&& 2 ^^^ (a &&& 4 ^^^ (a &&& 8 ^^^ (a &&& 16 ^^^
        (a &&& 32 ^^^ (a &&& 64 ^^^ (a &&& 128))))))) := by decide

lemma byte_masks : ∀ a, a < 256 →
    (a &&& 1 = 0 ∨ a &&& 1 = 1) ∧ (a &&& 2 = 0 ∨ a &&& 2 = 2) ∧
    (a &&& 4 = 0 ∨ a &&& 4 = 4) ∧ (a &&& 8 = 0 ∨ a &&& 8 = 8) ∧
    (a &&& 16 = 0 ∨ a &&& 16 = 16) ∧ (a &&& 32 = 0 ∨ a &&& 32 = 32) ∧
    (a &&& 64 = 0 ∨ a &&& 64 = 64) ∧ (a &&& 128 = 0 ∨ a &&& 128 = 128) := by decide

lemma byte_span (P : Nat → Prop) (h0 : P 0) (h1 : P 1) (h2 : P 2) (h4 : P 4)
    (h8 : P 8) (h16 : P 16) (h32 : P 32) (h64 : P 64) (h128 : P 128)
    (hxor : ∀ x y, x < 256 → y < 256 → P x → P y → P (x ^^^ y)) :
    ∀ a, a < 256 → P a := by
  intro a ha
  obtain ⟨c1, c2, c4, c8, c16, c32, c64, c128⟩ := byte_masks a ha
  have hb : ∀ m, (a &&& m = 0 ∨ a &&& m = m) → m < 256 → a &&& m < 256 := by
    intro m hm hl; rcases hm with h | h <;> omega
  have hp : ∀ m, (a &&& m = 0 ∨ a &&& m = m) → P m → P (a &&& m) := by
    intro m hm pm; rcases hm with h | h <;> rw [h]
    · exact h0
    · exact pm
  have b1 := hb 1 c1 (by omega); have b2 := hb 2 c2 (by omega)
  have b4 := hb 4 c4 (by omega); have b8 := hb 8 c8 (by omega)
  have b16 := hb 16 c16 (by omega); have b32 := hb 32 c32 (by omega)
  have b64 := hb 64 c64 (by omega); have b128 := hb 128 c128 (by omega)
  have p1 := hp 1 c1 h1; have p2 := hp 2 c2 h2
  have p4 := hp 4 c4 h4; have p8 := hp 8 c8 h8
  have p16 := hp 16 c16 h16; have p32 := hp 32 c32 h32
  have p64 := hp 64 c64 h64; have p128 := hp 128 c128 h128
  have s7 := hxor _ _ b64 b128 p64 p128
  have t7 := xor_lt_256 b64 b128
  have s6 := hxor _ _ b32 t7 p32 s7
  have t6 := xor_lt_256 b32 t7
  have s5 := hxor _ _ b16 t6 p16 s6
  have t5 := xor_lt_256 b16 t6
  have s4 := hxor _ _ b8 t5 p8 s5
  have t4 := xor_lt_256 b8 t5
  have s3 := hxor _ _ b4 t4 p4 s4
  have t3 := xor_lt_256 b4 t4
  have s2 := hxor _ _ b2 t3 p2 s3
  have t2 := xor_lt_256 b2 t3
  have s1 := hxor _ _ b1 t2 p1 s2
  rw [byte_decomp a ha]
  exact s1

/-! ### XOR-linearity of multiplication -/

lemma xor_left_comm (a b c : Nat) : a ^^^ (b ^^^ c) = b ^^^ (a ^^^ c) := by
  rw [← Nat.xor_assoc, Nat.xor_comm a b, Nat.xor_assoc]

lemma xtime_xor : ∀ a, a < 256 → ∀ b, b < 256 →
    xtime (a ^^^ b) = xtime a ^^^ xtime b := by
  refine byte_span (fun a => ∀ b, b < 256 → xtime (a ^^^ b) = xtime a ^^^ xtime b)
    ?_ ?_ ?_ ?_ ?_ ?_ ?_ ?_ ?_ ?_
  · decide
  · decide
  · decide
  · decide
  · decide
  · decide
  · decide
  · decide
  · decide
  · intro x y hx hy px py b hb
    calc xtime (x ^^^ y ^^^ b) = xtime (x ^^^ (y ^^^ b)) := by rw [Nat.xor_assoc]
      _ = xtime x ^^^ xtime (y ^^^ b) := px (y ^^^ b) (xor_lt_256 hy hb)
      _ = xtime x ^^^ (xtime y ^^^ xtime b) := by rw [py b hb]
      _ = (xtime x ^^^ xtime y) ^^^ xtime b := by rw [Nat.xor_assoc]
      _ = xtime (x ^^^ y) ^^^ xtime b := by rw [px y hy]

lemma gmulFuel_xor_left : ∀ f a a' b, a < 256 → a' < 256 →
    gmulFuel f (a ^^^ a') b = gmulFuel f a b ^^^ gmulFuel f a' b := by
  intro f
  induction f with
  | zero => intro a a' b _ _; simp [gmulFuel]
  | succ f ih =>
      intro a a' b ha ha'
      rw [gmulFuel_succ, gmulFuel_succ, gmulFuel_succ,
        xtime_xor a ha a' ha', ih _ _ _ (xtime_lt ha) (xtime_lt ha')]
      have hhead : (if b % 2 = 1 then a ^^^ a' else 0) =
          (if b % 2 = 1 then a else 0) ^^^ (if b % 2 = 1 then a' else 0) := by
        split <;> simp
      rw [hhead, Nat.xor_assoc, Nat.xor_assoc]
      congr 1
      rw [xor_left_comm]

lemma gmulFuel_xor_right : ∀ f a b b',
    gmulFuel f a (b ^^^ b') = gmulFuel f a b ^^^ gmulFuel f a b' := by
  intro f
  induction f with
  | zero => intro a b b'; simp [gmulFuel]
  | succ f ih =>
      intro a b b'
      rw [gmulFuel_succ, gmulFuel_succ, gmulFuel_succ, Nat.xor_div_two, ih]
      have hhead : (if (b ^^^ b') % 2 = 1 then a else 0) =
          (if b % 2 = 1 then a else 0) ^^^ (if b' % 2 = 1 then a else 0) := by
        have hx : (b ^^^ b') % 2 = (b + b') % 2 := Nat.xor_mod_two_eq
        rcases Nat.mod_two_eq_zero_or_one b with hb | hb <;>
          rcases Nat.mod_two_eq_zero_or_one b' with hb' | hb' <;>
            simp [hx, Nat.add_mod, hb, hb']
      rw [hhead, Nat.xor_assoc, Nat.xor_assoc]
      congr 1
      rw [xor_left_comm]

lemma gmulN_xor_left {a a' : Nat} (b : Nat) (ha : a < 256) (ha' : a' < 256) :
    gmulN (a ^^^ a') b = gmulN a b ^^^ gmulN a' b :=
  gmulFuel_xor_left 8 a a' b ha ha'

lemma gmulN_xor_right (a b b' : Nat) :
    gmulN a (b ^^^ b') = gmulN a b ^^^ gmulN a b' :=
  gmulFuel_xor_right 8 a b b'

lemma gmulN_zero_right (a : Nat) : gmulN a 0 = 0 := gmulFuel_zero_right 8 a

lemma gmulN_zero_left (b : Nat) : gmulN 0 b = 0 := gmulFuel_zero_left 8 b

/-! ### Commutativity and associativity -/

/-- The nine XOR-generators of the byte range. -/
def powsList : List Nat := [0, 1, 2, 4, 8, 16, 32, 64, 128]

lemma gmulN_comm : ∀ a, a < 256 → ∀ b, b < 256 → gmulN a b = gmulN b a := by
  have base : ∀ a ∈ powsList, ∀ b, b < 256 → gmulN a b = gmulN b a := by decide
  refine byte_span (fun a => ∀ b, b < 256 → gmulN a b = gmulN b a)
    (base 0 (by decide)) (base 1 (by decide)) (base 2 (by decide)) (base 4 (by decide))
    (base 8 (by decide)) (base 16 (by decide)) (base 32 (by decide)) (base 64 (by decide))
    (base 128 (by decide)) ?_
  intro x y hx hy px py b hb
  rw [gmulN_xor_left b hx hy, px b hb, py b hb, ← gmulN_xor_right]

lemma gmulN_assoc : ∀ a, a < 256 → ∀ b, b < 256 → ∀ c, c < 256 →
    gmulN a (gmulN b c) = gmulN (gmulN a b) c := by
  have base : ∀ a ∈ powsList, ∀ b ∈ powsList, ∀ c ∈ powsList,
      gmulN a (gmulN b c) = gmulN (gmulN a b) c := by decide
  -- with b and c fixed at base points, reduce a to the generators
  have stepA : ∀ b ∈ powsList, ∀ c ∈ powsList, ∀ a, a < 256 →
      gmulN a (gmulN b c) = gmulN (gmulN a b) c := by
    intro b hbm c hcm
    refine byte_span (fun a => gmulN a (gmulN b c) = gmulN (gmulN a b) c)
      (base 0 (by decide) b hbm c hcm) (base 1 (by decide) b hbm c hcm)
      (base 2 (by decide) b hbm c hcm) (base 4 (by decide) b hbm c hcm)
      (base 8 (by decide) b hbm c hcm) (base 16 (by decide) b hbm c hcm)
      (base 32 (by decide) b hbm c hcm) (base 64 (by decide) b hbm c hcm)
      (base 128 (by decide) b hbm c hcm) ?_
    intro x y hx hy px py
    rw [gmulN_xor_left (gmulN b c) hx hy, px, py,
      gmulN_xor_left b hx hy, ← gmulN_xor_left c (gmulN_lt hx) (gmulN_lt hy)]
  -- with c fixed at a base point, reduce b to the generators
  have stepB : ∀ c ∈ powsList, ∀ b, b < 256 → ∀ a, a < 256 →
      gmulN a (gmulN b c) = gmulN (gmulN a b) c := by
    intro c hcm
    refine byte_span (fun b => ∀ a, a < 256 → gmulN a (gmulN b c) = gmulN (gmulN a b) c)
      (stepA 0 (by decide) c hcm) (stepA 1 (by decide) c hcm)
      (stepA 2 (by decide) c hcm) (stepA 4 (by decide) c hcm)
      (stepA 8 (by decide) c hcm) (stepA 16 (by decide) c hcm)
      (stepA 32 (by decide) c hcm) (stepA 64 (by decide) c hcm)
      (stepA 128 (by decide) c hcm) ?_
    intro x y hx hy px py a ha
    rw [gmulN_xor_left c hx hy, gmulN_xor_right, px a ha, py a ha,
      ← gmulN_xor_left c (gmulN_lt ha) (gmulN_lt ha), ← gmulN_xor_right]
  -- finally reduce c to the generators
  have stepC : ∀ c, c < 256 → ∀ b, b < 256 → ∀ a, a < 256 →
      gmulN a (gmulN b c) = gmulN (gmulN a b) c := by
    refine byte_span
      (fun c => ∀ b, b < 256 → ∀ a, a < 256 → gmulN a (gmulN b c) = gmulN (gmulN a b) c)
      (stepB 0 (by decide)) (stepB 1 (by decide)) (stepB 2 (by decide))
      (stepB 4 (by decide)) (stepB 8 (by decide)) (stepB 16 (by decide))
      (stepB 32 (by decide)) (stepB 64 (by decide)) (stepB 128 (by decide)) ?_
    intro x y _ _ px py b hb a ha
    rw [gmulN_xor_right, gmulN_xor_right, px b hb a ha, py b hb a ha, ← gmulN_xor_right]
  intro a ha b hb c hc
  exact stepC c hc b hb a ha

lemma gmulN_one_left : ∀ a, a < 256 → gmulN 1 a = a := by decide

lemma gmulN_one_right : ∀ a, a < 256 → gmulN a 1 = a := by decide

lemma ginvN_mul : ∀ a, a < 256 → a ≠ 0 → gmulN a (ginvN a) = 1 := by decide

lemma ginvN_zero : ginvN 0 = 0 := by decide

/-! ### The field GF(256) as a type -/

/-- A field element: one byte. -/
structure GF where
  val : Nat
  isLt : val < 256

lemma GF.ext {a b : GF} (h : a.val = b.val) : a = b := by
  cases a; cases b; simp only at h; subst h; rfl

instance : DecidableEq GF := fun a b =>
  decidable_of_iff (a.val = b.val) ⟨GF.ext, fun h => h ▸ rfl⟩

/-- Modelled from the spec: `gf256_add` (not under src/) is bitwise XOR
(spec section 4.1). -/
def gf256_add (a b : GF) : GF := ⟨a.val ^^^ b.val, xor_lt_256 a.isLt b.isLt⟩

/-- Modelled from the spec: `gf256_sub` (not under src/) coincides with
addition ("subtraction and addition coincide in this field"). -/
def gf256_sub (a b : GF) : GF := gf256_add a b

/-- Modelled from the spec: `gf256_mul` (not under src/) is polynomial
multiplication modulo the fixed irreducible degree-8 polynomial 0x11b. -/
def gf256_mul (a b : GF) : GF := ⟨gmulN a.val b.val, gmulN_lt a.isLt⟩

/-- Modelled from the spec: the multiplicative-inverse helper backing
`gf256_div` (not under src/); realised as a^254. -/
def gf256_inverse (a : GF) : GF := ⟨ginvN a.val, ginvN_lt a.isLt⟩

/-- Modelled from the spec: `gf256_div a b = mul(a, inverse(b))` (not under
src/). -/
def gf256_div (a b : GF) : GF := gf256_mul a (gf256_inverse b)

instance : Zero GF := ⟨⟨0, by omega⟩⟩
instance : One GF := ⟨⟨1, by omega⟩⟩

lemma GF.zero_val : (0 : GF).val = 0 := rfl
lemma GF.one_val : (1 : GF).val = 1 := rfl

instance : Add GF := ⟨gf256_add⟩
instance : Mul GF := ⟨gf256_mul⟩
instance : Neg GF := ⟨fun a => a⟩
instance : Inv GF := ⟨gf256_inverse⟩

lemma GF.add_val (a b : GF) : (a + b).val = a.val ^^^ b.val := rfl
lemma GF.mul_val (a b : GF) : (a * b).val = gmulN a.val b.val := rfl

instance : CommRing GF where
  add := (· + ·)
  add_assoc a b c := GF.ext (Nat.xor_assoc a.val b.val c.val)
  zero_add a := GF.ext (Nat.zero_xor a.val)
  add_zero a := GF.ext (Nat.xor_zero a.val)
  add_comm a b := GF.ext (Nat.xor_comm a.val b.val)
  mul := (· * ·)
  nsmul := nsmulRec
  zsmul := zsmulRec
  mul_assoc a b c := GF.ext (gmulN_assoc a.val a.isLt b.val b.isLt c.val c.isLt).symm
  one_mul a := GF.ext (gmulN_one_left a.val a.isLt)
  mul_one a := GF.ext (gmulN_one_right a.val a.isLt)
  left_distrib a b c := GF.ext (gmulN_xor_right a.val b.val c.val)
  right_distrib a b c := GF.ext (gmulN_xor_left c.val a.isLt b.isLt)
  mul_comm a b := GF.ext (gmulN_comm a.val a.isLt b.val b.isLt)
  zero_mul a := GF.ext (gmulN_zero_left a.val)
  mul_zero a := GF.ext (gmulN_zero_right a.val)
  neg a := -a
  neg_add_cancel a := GF.ext (Nat.xor_self a.val)

lemma GF.mul_inv_cancel_aux (a : GF) (ha : a ≠ 0) : a * a⁻¹ = 1 := by
  have hv : a.val ≠ 0 := fun h0 => ha (GF.ext h0)
  exact GF.ext (ginvN_mul a.val a.isLt hv)

lemma GF.inv_zero_aux : (0 : GF)⁻¹ = 0 := GF.ext ginvN_zero

lemma GF.zero_ne_one_aux : (0 : GF) ≠ 1 := fun h => by
  have := congrArg GF.val h
  simp [GF.zero_val, GF.one_val] at this

instance : Field GF where
  inv := (·⁻¹)
  exists_pair_ne := ⟨0, 1, GF.zero_ne_one_aux⟩
  mul_inv_cancel := GF.mul_inv_cancel_aux
  inv_zero := GF.inv_zero_aux
  nnqsmul := _
  qsmul := _

lemma GF.add_def (a b : GF) : a + b = gf256_add a b := rfl
lemma GF.mul_def (a b : GF) : a * b = gf256_mul a b := rfl
lemma GF.inv_def (a : GF) : a⁻¹ = gf256_inverse a := rfl
lemma GF.neg_def (a : GF) : -a = a := rfl

lemma GF.sub_def (a b : GF) : a - b = a + b := rfl

lemma gf256_div_eq (a b : GF) : gf256_div a b = a * b⁻¹ := rfl

lemma gf256_sub_eq (a b : GF) : gf256_sub a b = a - b := (GF.sub_def a b).symm

/-! ### Errors -/

inductive SSSError
  | invalidShareIndex
  | invalidThreshold
  | notInitialized
  | alreadyDecoded
  | insufficientShares
  | malformedShares
  | inconsistentShares
  | divisionByZero
deriving DecidableEq

/-! ### src/math.go -/

/-- Embedding of `f` from src/math.go: Horner-style evaluation of the
polynomial with coefficients `coefs_bytes` (increasing degree) at `x`.
The `panic` on `x == 0` is modelled as an error. -/
def f (x : GF) (coefs_bytes : List GF) : Except SSSError GF :=
  if x = 0 then .error .invalidShareIndex
  else .ok ((coefs_bytes.foldl
      (fun (st : GF × GF) c => (gf256_add st.1 (gf256_mul c st.2), gf256_mul st.2 x))
      (0, 1)).1)

/-- Recursive evaluation of a coefficient list, used to state what `f`
computes. -/
def evalRec : List GF → GF → GF
  | [], _ => 0
  | c :: cs, x => c + x * evalRec cs x

lemma f_foldl (x : GF) (l : List GF) (acc p : GF) :
    (l.foldl (fun (st : GF × GF) c => (gf256_add st.1 (gf256_mul c st.2), gf256_mul st.2 x))
      (acc, p)).1 = acc + p * evalRec l x := by
  induction l generalizing acc p with
  | nil => simp [evalRec]
  | cons c cs ih =>
      rw [List.foldl_cons, ih]
      show acc + c * p + p * x * evalRec cs x = acc + p * evalRec (c :: cs) x
      rw [evalRec]
      ring

lemma f_ok (x : GF) (l : List GF) (hx : x ≠ 0) : f x l = .ok (evalRec l x) := by
  rw [f, if_neg hx, f_foldl]
  rw [zero_add, one_mul]

lemma f_zero (l : List GF) : f 0 l = .error .invalidShareIndex := by
  rw [f, if_pos rfl]

/-- Total version of polynomial addition (pad with zeros, XOR elementwise),
the value `add_polynomials` always returns. -/
def addPoly : List GF → List GF → List GF
  | [], b => b
  | a :: as, [] => a :: as
  | a :: as, b :: bs => gf256_add a b :: addPoly as bs

/-- Embedding of `add_polynomials` from src/math.go: make the operands the
same length by appending zeros, then add elementwise; the internal
length-mismatch `panic` is modelled as `none`. -/
def add_polynomials (a b : List GF) : Option (List GF) :=
  let a2 := if a.length < b.length then a ++ List.replicate (b.length - a.length) 0 else a
  let b2 := if a2.length > b.length then b ++ List.replicate (a2.length - b.length) 0 else b
  if a2.length ≠ b2.length then none
  else some (List.zipWith gf256_add a2 b2)

lemma addPoly_nil_right : ∀ a : List GF, addPoly a [] = a := by
  intro a; cases a <;> rfl

lemma zipWith_add_replicate_left : ∀ b : List GF,
    List.zipWith gf256_add (List.replicate b.length 0) b = b := by
  intro b
  induction b with
  | nil => rfl
  | cons x xs ih =>
      show gf256_add 0 x :: _ = _
      rw [ih]
      congr 1
      exact GF.ext (Nat.zero_xor x.val)

lemma zipWith_add_replicate_right : ∀ a : List GF,
    List.zipWith gf256_add a (List.replicate a.length 0) = a := by
  intro a
  induction a with
  | nil => rfl
  | cons x xs ih =>
      show gf256_add x 0 :: _ = _
      rw [ih]
      congr 1
      exact GF.ext (Nat.xor_zero x.val)

lemma addPoly_eq_zip : ∀ a b : List GF,
    addPoly a b = List.zipWith gf256_add (a ++ List.replicate (b.length - a.length) 0)
      (b ++ List.replicate (a.length - b.length) 0) := by
  intro a
  induction a with
  | nil =>
      intro b
      simp only [addPoly, List.length_nil, List.nil_append, Nat.zero_sub,
        List.replicate_zero, List.append_nil]
      exact (zipWith_add_replicate_left b).symm
  | cons x xs ih =>
      intro b
      cases b with
      | nil =>
          simp only [addPoly, List.length_nil, List.length_cons, Nat.zero_sub,
            List.replicate_zero, List.append_nil, List.nil_append]
          have : List.replicate (xs.length + 1 - 0) (0 : GF) =
              List.replicate (x :: xs).length 0 := by simp
          rw [this]
          exact (zipWith_add_replicate_right (x :: xs)).symm
      | cons y ys =>
          show gf256_add x y :: addPoly xs ys = _
          rw [ih ys]
          simp [Nat.succ_sub_succ]

lemma add_polynomials_eq (a b : List GF) :
    add_polynomials a b = some (addPoly a b) := by
  rw [add_polynomials]
  by_cases h : a.length < b.length
  · -- a is padded to b's length, b is untouched
    rw [if_pos h]
    have hlen : (a ++ List.replicate (b.length - a.length) (0 : GF)).length = b.length := by
      simp; omega
    rw [hlen]
    have hgt : ¬ b.length > b.length := by omega
    rw [if_neg hgt]
    rw [if_neg (by omega : ¬ b.length ≠ b.length)]
    rw [addPoly_eq_zip a b]
    have h0 : a.length - b.length = 0 := by omega
    rw [h0]
    simp
  · -- a is untouched; b is padded when strictly shorter
    rw [if_neg h]
    by_cases h2 : a.length > b.length
    · rw [if_pos h2]
      have hlen : (b ++ List.replicate (a.length - b.length) (0 : GF)).length = a.length := by
        simp; omega
      rw [hlen]
      rw [if_neg (by omega : ¬ a.length ≠ a.length)]
      rw [addPoly_eq_zip a b]
      have h0 : b.length - a.length = 0 := by omega
      rw [h0]
      simp
    · rw [if_neg h2]
      rw [if_neg (by omega : ¬ a.length ≠ b.length)]
      rw [addPoly_eq_zip a b]
      have h0 : b.length - a.length = 0 := by omega
      have h1 : a.length - b.length = 0 := by omega
      rw [h0, h1]
      simp

lemma addPoly_length : ∀ a b : List GF, (addPoly a b).length = max a.length b.length := by
  intro a
  induction a with
  | nil => intro b; simp [addPoly]
  | cons x xs ih =>
      intro b
      cases b with
      | nil => simp [addPoly]
      | cons y ys =>
          simp [addPoly, ih ys]
          omega

lemma addPoly_assoc : ∀ a b c : List GF,
    addPoly (addPoly a b) c = addPoly a (addPoly b c) := by
  intro a
  induction a with
  | nil => intro b c; rfl
  | cons x xs ih =>
      intro b c
      cases b with
      | nil => rfl
      | cons y ys =>
          cases c with
          | nil => rfl
          | cons z zs =>
              show gf256_add (gf256_add x y) z :: addPoly (addPoly xs ys) zs = _
              rw [ih ys zs]
              congr 1
              exact GF.ext (Nat.xor_assoc x.val y.val z.val)

lemma addPoly_replicate_prefix : ∀ (k : Nat) (u v : List GF),
    addPoly (List.replicate k 0 ++ u) (List.replicate k 0 ++ v) =
      List.replicate k 0 ++ addPoly u v := by
  intro k
  induction k with
  | zero => intro u v; simp
  | succ k ih =>
      intro u v
      show gf256_add 0 0 :: addPoly (List.replicate k 0 ++ u) (List.replicate k 0 ++ v) = _
      rw [ih]
      rfl

/-- Embedding of `multiply_polynomials` from src/math.go: iterate over the
terms of `b`, each time adding `termpadding ++ (a scaled by the term)` to the
accumulated result and growing the padding by one zero.  It calls `addPoly`,
the total function `add_polynomials` provably always returns
(`add_polynomials_eq`). -/
def multiply_polynomials (a b : List GF) : List GF :=
  (b.foldl
    (fun (st : List GF × List GF) bterm =>
      (addPoly st.1 (st.2 ++ a.map (fun aterm => gf256_mul aterm bterm)), st.2 ++ [0]))
    ([], [])).1

/-- Recursive characterisation of `multiply_polynomials`. -/
def mulRec (a : List GF) : List GF → List GF
  | [] => []
  | d :: ds =>
      addPoly (a.map (fun aterm => gf256_mul aterm d))
        (match ds with
          | [] => []
          | _ :: _ => 0 :: mulRec a ds)

lemma multiply_foldl (a : List GF) : ∀ (b : List GF) (k : Nat) (res : List GF), b ≠ [] →
    (b.foldl
      (fun (st : List GF × List GF) bterm =>
        (addPoly st.1 (st.2 ++ a.map (fun aterm => gf256_mul aterm bterm)), st.2 ++ [0]))
      (res, List.replicate k 0)).1 = addPoly res (List.replicate k 0 ++ mulRec a b) := by
  intro b
  induction b with
  | nil => intro k res hne; exact absurd rfl hne
  | cons d ds ih =>
      intro k res _
      rw [List.foldl_cons]
      have hrep : List.replicate k (0 : GF) ++ [0] = List.replicate (k+1) 0 := by
        rw [← List.replicate_succ']
      cases ds with
      | nil =>
          show addPoly res (List.replicate k 0 ++ a.map (fun aterm => gf256_mul aterm d))
              = addPoly res (List.replicate k 0 ++ mulRec a [d])
          rw [mulRec, addPoly_nil_right]
      | cons e es =>
          show (List.foldl _ (addPoly res (List.replicate k 0 ++
              a.map (fun aterm => gf256_mul aterm d)), List.replicate k 0 ++ [0]) (e :: es)).1 = _
          rw [hrep, ih (k+1) _ (by simp)]
          rw [addPoly_assoc]
          have hmr : mulRec a (d :: e :: es) =
              addPoly (a.map (fun aterm => gf256_mul aterm d)) (0 :: mulRec a (e :: es)) := rfl
          rw [hmr]
          congr 1
          have hsplit : List.replicate (k+1) (0 : GF) ++ mulRec a (e :: es) =
              List.replicate k 0 ++ (0 :: mulRec a (e :: es)) := by
            rw [List.replicate_succ', List.append_assoc]
            rfl
          rw [hsplit, addPoly_replicate_prefix]

lemma multiply_eq_mulRec (a b : List GF) : multiply_polynomials a b = mulRec a b := by
  cases b with
  | nil => rfl
  | cons d ds =>
      rw [multiply_polynomials]
      have h := multiply_foldl a (d :: ds) 0 [] (by simp)
      simp only [List.replicate_zero, List.nil_append] at h
      rw [h]
      rfl

lemma mulRec_length (a : List GF) : ∀ b : List GF, b ≠ [] →
    (mulRec a b).length = a.length + b.length - 1 := by
  intro b
  induction b with
  | nil => intro h; exact absurd rfl h
  | cons d ds ih =>
      intro _
      cases ds with
      | nil =>
          show (addPoly (a.map (fun aterm => gf256_mul aterm d)) []).length = _
          rw [addPoly_nil_right]
          simp
      | cons e es =>
          show (addPoly (a.map (fun aterm => gf256_mul aterm d))
            (0 :: mulRec a (e :: es))).length = _
          rw [addPoly_length]
          have h1 := ih (by simp)
          simp only [List.length_cons, List.length_map] at h1 ⊢
          omega

lemma multiply_length (a : List GF) {b : List GF} (hb : b ≠ []) :
    (multiply_polynomials a b).length = a.length + b.length - 1 := by
  rw [multiply_eq_mulRec]; exact mulRec_length a b hb

/-! ### Bridge to Mathlib polynomials -/

open Polynomial in
/-- The polynomial denoted by a coefficient list (index = degree). -/
noncomputable def toPoly : List GF → Polynomial GF
  | [] => 0
  | c :: cs => C c + X * toPoly cs

open Polynomial

lemma toPoly_nil : toPoly [] = 0 := rfl

lemma toPoly_cons (c : GF) (cs : List GF) : toPoly (c :: cs) = C c + X * toPoly cs := rfl

lemma toPoly_coeff : ∀ (l : List GF) (k : Nat), (toPoly l).coeff k = l.getD k 0 := by
  intro l
  induction l with
  | nil => intro k; simp [toPoly_nil]
  | cons c cs ih =>
      intro k
      cases k with
      | zero => simp [toPoly_cons, mul_coeff_zero]
      | succ k => simp [toPoly_cons, coeff_X_mul, ih k]

lemma toPoly_addPoly : ∀ a b : List GF, toPoly (addPoly a b) = toPoly a + toPoly b := by
  intro a
  induction a with
  | nil => intro b; show toPoly b = toPoly [] + toPoly b; simp [toPoly_nil]
  | cons x xs ih =>
      intro b
      cases b with
      | nil => show toPoly (x :: xs) = toPoly (x :: xs) + toPoly []; simp [toPoly_nil]
      | cons y ys =>
          show toPoly (gf256_add x y :: addPoly xs ys) = _
          have hadd : gf256_add x y = x + y := rfl
          rw [toPoly_cons, toPoly_cons, toPoly_cons, ih ys, hadd, C_add]
          ring

lemma toPoly_map_mul (d : GF) : ∀ a : List GF,
    toPoly (a.map (fun aterm => gf256_mul aterm d)) = toPoly a * C d := by
  intro a
  induction a with
  | nil => simp [toPoly_nil]
  | cons x xs ih =>
      show toPoly (gf256_mul x d :: _) = _
      have hmul : gf256_mul x d = x * d := rfl
      rw [toPoly_cons, ih, hmul, C_mul, toPoly_cons]
      ring

lemma toPoly_mulRec (a : List GF) : ∀ b : List GF,
    toPoly (mulRec a b) = toPoly a * toPoly b := by
  intro b
  induction b with
  | nil => simp [mulRec, toPoly_nil]
  | cons d ds ih =>
      cases ds with
      | nil =>
          show toPoly (addPoly (a.map (fun aterm => gf256_mul aterm d)) []) = _
          rw [addPoly_nil_right, toPoly_map_mul, toPoly_cons, toPoly_nil]
          ring
      | cons e es =>
          show toPoly (addPoly (a.map (fun aterm => gf256_mul aterm d))
            (0 :: mulRec a (e :: es))) = _
          rw [toPoly_addPoly, toPoly_map_mul, toPoly_cons, toPoly_cons, ih, C_0]
          ring

lemma toPoly_mul (a b : List GF) :
    toPoly (multiply_polynomials a b) = toPoly a * toPoly b := by
  rw [multiply_eq_mulRec, toPoly_mulRec]

lemma toPoly_eval : ∀ (l : List GF) (x : GF), (toPoly l).eval x = evalRec l x := by
  intro l
  induction l with
  | nil => intro x; simp [toPoly_nil, evalRec]
  | cons c cs ih => intro x; simp [toPoly_cons, evalRec, ih]

lemma toPoly_degree_lt (l : List GF) : (toPoly l).degree < (l.length : Nat) := by
  rw [degree_lt_iff_coeff_zero]
  intro m hm
  rw [toPoly_coeff]
  exact List.getD_eq_default _ _ (by exact_mod_cast hm)

lemma toPoly_inj_of_length {a b : List GF} (hl : a.length = b.length)
    (h : toPoly a = toPoly b) : a = b := by
  apply List.ext_getElem hl
  intro i h1 h2
  rw [← List.getD_eq_getElem a 0 h1, ← List.getD_eq_getElem b 0 h2,
    ← toPoly_coeff, ← toPoly_coeff, h]

/-! ### full_lagrange (src/math.go) -/

/-- Embedding of the inner loop of `full_lagrange` (src/math.go): the product
over all `j` different from `i` of the degree-1 factor
`[gf256_div xs[j] denominator, gf256_div 1 denominator]` with
`denominator = gf256_sub xs[i] xs[j]` (the local `denominator` is inlined),
accumulated from `[1]` via `multiply_polynomials`. -/
def lagrangeBasisPoly (xs : List GF) (n i : Nat) : List GF :=
  (List.range n).foldl (fun this_polynomial j =>
    if i = j then this_polynomial
    else
      multiply_polynomials this_polynomial
        [gf256_div (xs.getD j 0) (gf256_sub (xs.getD i 0) (xs.getD j 0)),
         gf256_div 1 (gf256_sub (xs.getD i 0) (xs.getD j 0))]) [1]

/-- Embedding of the outer loop of `full_lagrange` (src/math.go): scale each
basis polynomial by `fxs[i]` and accumulate into `returnedcoefficients`. -/
def lagrangeBody (xs fxs : List GF) : List GF :=
  (List.range fxs.length).foldl (fun returnedcoefficients i =>
    addPoly returnedcoefficients
      (multiply_polynomials (lagrangeBasisPoly xs fxs.length i) [fxs.getD i 0])) []

/-- Embedding of `full_lagrange` from src/math.go; the equal-length `panic`
is modelled as `none`. -/
def full_lagrange (xs fxs : List GF) : Option (List GF) :=
  if xs.length ≠ fxs.length then none else some (lagrangeBody xs fxs)

lemma toPoly_foldl_addPoly (g : Nat → List GF) :
    ∀ (l : List Nat) (init : List GF),
    toPoly (l.foldl (fun acc i => addPoly acc (g i)) init) =
      toPoly init + (l.map (fun i => toPoly (g i))).sum := by
  intro l
  induction l with
  | nil => intro init; simp
  | cons j js ih =>
      intro init
      rw [List.foldl_cons, ih, toPoly_addPoly, List.map_cons, List.sum_cons]
      ring

lemma toPoly_foldl_mul (g : Nat → List GF) (i : Nat) :
    ∀ (l : List Nat) (init : List GF),
    toPoly (l.foldl (fun p j => if i = j then p else multiply_polynomials p (g j)) init) =
      toPoly init * (l.map (fun j => if i = j then 1 else toPoly (g j))).prod := by
  intro l
  induction l with
  | nil => intro init; simp
  | cons j js ih =>
      intro init
      rw [List.foldl_cons, List.map_cons, List.prod_cons]
      by_cases hij : i = j
      · rw [if_pos hij, if_pos hij, ih, one_mul]
      · rw [if_neg hij, if_neg hij, ih, toPoly_mul]
        ring

lemma list_range_sum {M : Type} [AddCommMonoid M] (g : Nat → M) :
    ∀ n : Nat, ((List.range n).map g).sum = ∑ i ∈ Finset.range n, g i := by
  intro n
  induction n with
  | zero => simp
  | succ n ih =>
      rw [List.range_succ, List.map_append, List.sum_append, Finset.sum_range_succ, ih]
      simp

lemma list_range_prod {M : Type} [CommMonoid M] (g : Nat → M) :
    ∀ n : Nat, ((List.range n).map g).prod = ∏ i ∈ Finset.range n, g i := by
  intro n
  induction n with
  | zero => simp
  | succ n ih =>
      rw [List.range_succ, List.map_append, List.prod_append, Finset.prod_range_succ, ih]
      simp

lemma toPoly_pair (a b : GF) : toPoly [a, b] = C a + C b * X := by
  rw [toPoly_cons, toPoly_cons, toPoly_nil]
  ring

lemma toPoly_single (c : GF) : toPoly [c] = C c := by
  rw [toPoly_cons, toPoly_nil]
  ring

lemma term_eq_basisDivisor (xi xj : GF) :
    toPoly [gf256_div xj (gf256_sub xi xj), gf256_div 1 (gf256_sub xi xj)] =
      Lagrange.basisDivisor xi xj := by
  show _ = C (xi - xj)⁻¹ * (X - C xj)
  rw [toPoly_pair, gf256_div_eq, gf256_div_eq, gf256_sub_eq]
  rw [sub_eq_add_neg X (C xj), ← C_neg, GF.neg_def]
  rw [one_mul, mul_add, ← C_mul]
  have hcomm : xj * (xi - xj)⁻¹ = (xi - xj)⁻¹ * xj := mul_comm _ _
  rw [hcomm]
  ring

lemma prod_ite_erase {M : Type} [CommMonoid M] (s : Finset Nat) (i : Nat) (g : Nat → M) :
    (∏ j ∈ s, if i = j then 1 else g j) = ∏ j ∈ s.erase i, g j := by
  have h0 : (if i = i then 1 else g i) = (1 : M) := if_pos rfl
  rw [← Finset.prod_erase s h0]
  refine Finset.prod_congr rfl ?_
  intro j hj
  have hji : j ≠ i := Finset.ne_of_mem_erase hj
  rw [if_neg (fun h => hji h.symm)]

lemma basisPoly_eq_basis (xs : List GF) (n i : Nat) :
    toPoly (lagrangeBasisPoly xs n i) =
      Lagrange.basis (Finset.range n) (fun k => xs.getD k 0) i := by
  have h1 := toPoly_foldl_mul (fun j =>
      [gf256_div (xs.getD j 0) (gf256_sub (xs.getD i 0) (xs.getD j 0)),
       gf256_div 1 (gf256_sub (xs.getD i 0) (xs.getD j 0))]) i (List.range n) [1]
  have h2 : toPoly (lagrangeBasisPoly xs n i) = toPoly [1] *
      ((List.range n).map (fun j => if i = j then 1 else
        toPoly [gf256_div (xs.getD j 0) (gf256_sub (xs.getD i 0) (xs.getD j 0)),
                gf256_div 1 (gf256_sub (xs.getD i 0) (xs.getD j 0))])).prod := h1
  rw [h2, toPoly_single, C_1, one_mul, list_range_prod, prod_ite_erase]
  show _ = ∏ j ∈ (Finset.range n).erase i,
      Lagrange.basisDivisor (xs.getD i 0) (xs.getD j 0)
  refine Finset.prod_congr rfl ?_
  intro j _
  rw [term_eq_basisDivisor]

lemma lagrangeBody_eq_interpolate (xs fxs : List GF) :
    toPoly (lagrangeBody xs fxs) =
      Lagrange.interpolate (Finset.range fxs.length) (fun k => xs.getD k 0)
        (fun k => fxs.getD k 0) := by
  have h1 : toPoly (lagrangeBody xs fxs) = toPoly [] +
      ((List.range fxs.length).map (fun i =>
        toPoly (multiply_polynomials (lagrangeBasisPoly xs fxs.length i)
          [fxs.getD i 0]))).sum :=
    toPoly_foldl_addPoly _ (List.range fxs.length) []
  rw [h1, toPoly_nil, zero_add, list_range_sum, Lagrange.interpolate_apply]
  refine Finset.sum_congr rfl ?_
  intro i _
  rw [toPoly_mul, toPoly_single, basisPoly_eq_basis, mul_comm]

lemma multiply_single_length (p : List GF) (c : GF) :
    (multiply_polynomials p [c]).length = p.length := by
  rw [multiply_length p (by simp : ([c] : List GF) ≠ [])]
  simp

lemma basis_foldl_length (xs : List GF) (i : Nat) :
    ∀ (l : List Nat) (init : List GF),
    ((l.foldl (fun p j =>
      if i = j then p
      else
        multiply_polynomials p
          [gf256_div (xs.getD j 0) (gf256_sub (xs.getD i 0) (xs.getD j 0)),
           gf256_div 1 (gf256_sub (xs.getD i 0) (xs.getD j 0))]) init).length)
      = init.length + (l.filter (fun j => ! (i == j))).length := by
  intro l
  induction l with
  | nil => intro init; simp
  | cons j js ih =>
      intro init
      rw [List.foldl_cons, List.filter_cons]
      by_cases hij : i = j
      · rw [if_pos hij, ih]
        have hb : (! (i == j)) = false := by simp [hij]
        rw [hb]
        simp
      · rw [if_neg hij, ih]
        have hb : (! (i == j)) = true := by simp [hij]
        rw [hb]
        rw [multiply_length _ (by simp : ([gf256_div (xs.getD j 0) (gf256_sub (xs.getD i 0) (xs.getD j 0)), gf256_div 1 (gf256_sub (xs.getD i 0) (xs.getD j 0))] : List GF) ≠ [])]
        simp only [List.length_cons, List.length_nil, if_true]
        omega

lemma range_filter_ne_length (i : Nat) : ∀ n : Nat, i < n →
    ((List.range n).filter (fun j => ! (i == j))).length = n - 1 := by
  intro n
  induction n with
  | zero => intro h; omega
  | succ n ih =>
      intro hi
      rw [List.range_succ, List.filter_append]
      by_cases h : i < n
      · have h1 : (List.filter (fun j => !(i == j)) [n]).length = 1 := by
          have : (! (i == n)) = true := by simp; omega
          simp [List.filter, this]
        rw [List.length_append, ih h, h1]
        omega
      · have hin : i = n := by omega
        subst hin
        have h1 : (List.filter (fun j => !(i == j)) [i]).length = 0 := by
          simp [List.filter]
        have h2 : List.filter (fun j => !(i == j)) (List.range i) = List.range i := by
          apply List.filter_eq_self.mpr
          intro a ha
          have : a < i := List.mem_range.mp ha
          simp
          omega
        rw [List.length_append, h1, h2, List.length_range]
        omega

lemma basisPoly_length (xs : List GF) (n i : Nat) (hi : i < n) :
    (lagrangeBasisPoly xs n i).length = n := by
  unfold lagrangeBasisPoly
  rw [basis_foldl_length, range_filter_ne_length i n hi]
  simp
  omega

lemma body_foldl_length (xs fxs : List GF) :
    ∀ (l : List Nat) (init : List GF), (∀ i ∈ l, i < fxs.length) → l ≠ [] →
    ((l.foldl (fun acc i =>
      addPoly acc (multiply_polynomials (lagrangeBasisPoly xs fxs.length i)
        [fxs.getD i 0])) init).length) = max init.length fxs.length := by
  intro l
  induction l with
  | nil => intro init _ hne; exact absurd rfl hne
  | cons j js ih =>
      intro init hmem _
      rw [List.foldl_cons]
      have hterm : (addPoly init (multiply_polynomials (lagrangeBasisPoly xs fxs.length j)
          [fxs.getD j 0])).length = max init.length fxs.length := by
        rw [addPoly_length, multiply_single_length,
          basisPoly_length xs fxs.length j (hmem j (by simp))]
      cases js with
      | nil => exact hterm
      | cons e es =>
          rw [ih _ (fun k hk => hmem k (by simp [hk])) (by simp), hterm]
          omega

lemma lagrangeBody_length (xs fxs : List GF) :
    (lagrangeBody xs fxs).length = fxs.length := by
  by_cases hn : fxs.length = 0
  · unfold lagrangeBody
    rw [hn]
    rfl
  · unfold lagrangeBody
    rw [body_foldl_length xs fxs (List.range fxs.length) []
      (fun i hi => List.mem_range.mp hi) (by simp [List.range_eq_nil, hn])]
    simp

lemma getD_injOn_range {xs : List GF} (hnd : xs.Nodup) :
    Set.InjOn (fun k => xs.getD k 0) (Finset.range xs.length) := by
  intro a ha b hb hab
  simp only [Finset.coe_range, Set.mem_Iio] at ha hb
  simp only at hab
  rw [List.getD_eq_getElem _ _ ha, List.getD_eq_getElem _ _ hb] at hab
  exact (List.Nodup.getElem_inj_iff hnd).mp hab

lemma toPoly_replicate_zero : ∀ k : Nat, toPoly (List.replicate k 0) = 0 := by
  intro k
  induction k with
  | zero => rfl
  | succ k ih =>
      show toPoly ((0 : GF) :: List.replicate k 0) = 0
      rw [toPoly_cons, ih, C_0]
      ring

lemma toPoly_append_zeros (l : List GF) (k : Nat) :
    toPoly (l ++ List.replicate k 0) = toPoly l := by
  induction l with
  | nil => simp [toPoly_nil, toPoly_replicate_zero]
  | cons c cs ih =>
      rw [List.cons_append, toPoly_cons, toPoly_cons, ih]

lemma map_evalRec_getD (coefs xs : List GF) {i : Nat} (hi : i < xs.length) :
    (xs.map (fun x => evalRec coefs x)).getD i 0 = evalRec coefs (xs.getD i 0) := by
  rw [List.getD_eq_getElem _ _ (by simpa using hi), List.getElem_map,
    ← List.getD_eq_getElem _ _ hi]

lemma full_lagrange_some (xs fxs : List GF) (hlen : xs.length = fxs.length) :
    full_lagrange xs fxs = some (lagrangeBody xs fxs) := by
  unfold full_lagrange
  rw [if_neg (by omega)]

lemma toPoly_coefs_degree_lt_card (coefs : List GF) (n : Nat) (hle : coefs.length ≤ n) :
    (toPoly coefs).degree < ((Finset.range n).card : Nat) := by
  rw [Finset.card_range]
  exact lt_of_lt_of_le (toPoly_degree_lt coefs) (by exact_mod_cast hle)

lemma lagrangeBody_genuine (coefs xs : List GF) (hnd : xs.Nodup)
    (h0 : coefs.length ≤ xs.length) :
    lagrangeBody xs (xs.map (fun x => evalRec coefs x)) =
      coefs ++ List.replicate (xs.length - coefs.length) 0 := by
  have hlen : (xs.map (fun x => evalRec coefs x)).length = xs.length := by simp
  have hvs : Set.InjOn (fun k => xs.getD k 0)
      (Finset.range (xs.map (fun x => evalRec coefs x)).length) := by
    rw [hlen]
    exact getD_injOn_range hnd
  have htp : toPoly (lagrangeBody xs (xs.map (fun x => evalRec coefs x))) = toPoly coefs := by
    rw [lagrangeBody_eq_interpolate]
    symm
    apply Lagrange.eq_interpolate_of_eval_eq _ hvs
    · rw [hlen]
      exact toPoly_coefs_degree_lt_card coefs xs.length h0
    · intro i hi
      rw [Finset.mem_range, hlen] at hi
      rw [toPoly_eval, map_evalRec_getD coefs xs hi]
  apply toPoly_inj_of_length
  · rw [lagrangeBody_length, hlen]
    simp
    omega
  · rw [htp, toPoly_append_zeros]

lemma full_lagrange_genuine (coefs xs : List GF) (hnd : xs.Nodup)
    (h0 : coefs.length ≤ xs.length) :
    full_lagrange xs (xs.map (fun x => evalRec coefs x)) =
      some (coefs ++ List.replicate (xs.length - coefs.length) 0) := by
  rw [full_lagrange_some _ _ (by simp), lagrangeBody_genuine coefs xs hnd h0]

lemma lagrangeBody_eval_nodes (xs fxs : List GF) (hlen : xs.length = fxs.length)
    (hnd : xs.Nodup) :
    ∀ i, i < fxs.length →
      (toPoly (lagrangeBody xs fxs)).eval (xs.getD i 0) = fxs.getD i 0 := by
  intro i hi
  rw [lagrangeBody_eq_interpolate]
  have hvs : Set.InjOn (fun k => xs.getD k 0) (Finset.range fxs.length) := by
    rw [← hlen]
    exact getD_injOn_range hnd
  exact Lagrange.eval_interpolate_at_node _ hvs (Finset.mem_range.mpr hi)

lemma lagrangeBody_unique (xs fxs : List GF) (hlen : xs.length = fxs.length)
    (hnd : xs.Nodup) (q : Polynomial GF) (hq : q.degree < (fxs.length : Nat))
    (hqe : ∀ i, i < fxs.length → q.eval (xs.getD i 0) = fxs.getD i 0) :
    q = toPoly (lagrangeBody xs fxs) := by
  rw [lagrangeBody_eq_interpolate]
  have hvs : Set.InjOn (fun k => xs.getD k 0) (Finset.range fxs.length) := by
    rw [← hlen]
    exact getD_injOn_range hnd
  apply Lagrange.eq_interpolate_of_eval_eq _ hvs
  · rw [Finset.card_range]
    exact hq
  · intro i hi
    exact hqe i (Finset.mem_range.mp hi)

/-! ### Session layer -/

/-- Embedding of the `Shamir` struct from src/sss.go. `Secretdata` is
optional: a decoder session holds none (Go nil slice). -/
structure Shamir where
  Threshhold : Nat
  Secretdata : Option (List GF)
  coefficients : Option (List (List GF))
deriving DecidableEq

/-- Embedding of `New` from src/sss.go: store the threshold and the secret
and derive, for each secret byte `b`, the coefficient list
`secretbyte + urandom(threshold-1)`; the external random source is modelled
by `rng`, where `rng b k` is the k-th random byte drawn for byte `b`.
`New` performs no validation of the threshold. -/
def New (threshold : Nat) (secretdata : List GF) (rng : Nat → Nat → GF) : Shamir :=
  { Threshhold := threshold
    Secretdata := some secretdata
    coefficients := some ((List.range secretdata.length).map (fun b =>
      secretdata.getD b 0 :: (List.range (threshold - 1)).map (rng b))) }

/-- Modelled from the spec: the deduplication step of `Recover` (not under
src/; spec section 4.4): deduplicate by x-coordinate, keeping the first
occurrence for any repeated x. -/
def dedupByX (shares : List (GF × List GF)) : List (GF × List GF) :=
  shares.foldl
    (fun acc sh => if acc.any (fun p => p.1 == sh.1) then acc else acc ++ [sh]) []

/-- Modelled from the spec: the degree-consistency check (spec sections 4.3
and 4.4): every coefficient at index at least `threshold` must be zero. -/
def degreeCheck (threshold : Nat) (r : List GF) : Bool :=
  (r.drop threshold).all (fun c => c == 0)

/-- Modelled from the spec: the malformed-shares check of `Recover`
(spec section 4.4): all fx vectors must have equal length. -/
def malformedCheck (unique : List (GF × List GF)) : Bool :=
  unique.any (fun sh => sh.2.length != (unique.headD (0, [])).2.length)

/-- Modelled from the spec: the share-index check of `Recover` (spec
section 7): x must lie in [1,254]. -/
def invalidXCheck (unique : List (GF × List GF)) : Bool :=
  unique.any (fun sh => sh.1.val == 0 || sh.1.val == 255)

/-- Modelled from the spec: the per-byte-position interpolations run by
`Recover` (spec section 4.4) on the deduplicated shares. -/
def recoverPolys (shares : List (GF × List GF)) : List (List GF) :=
  let unique := dedupByX shares
  (List.range (unique.headD (0, [])).2.length).map (fun j =>
    lagrangeBody (unique.map (fun sh => sh.1)) (unique.map (fun sh => sh.2.getD j 0)))

/-- Modelled from the spec: `Recover` (not under src/; spec section 4.4):
deduplicate by x; fail InsufficientShares if the unique count is below the
threshold; fail AlreadyDecoded if the session already holds a secret; fail
MalformedShares on mismatched fx lengths; fail InvalidShareIndex on x
outside [1,254]; interpolate every byte position and apply the
degree-consistency check, all-or-nothing (InconsistentShares); on success
commit the recovered secret (constant terms) and coefficient vectors. -/
def Recover (s : Shamir) (shares : List (GF × List GF)) : Except SSSError Shamir :=
  let unique := dedupByX shares
  if unique.length < s.Threshhold then .error .insufficientShares
  else if s.Secretdata.isSome then .error .alreadyDecoded
  else if malformedCheck unique then .error .malformedShares
  else if invalidXCheck unique then .error .invalidShareIndex
  else if (recoverPolys shares).all (degreeCheck s.Threshhold) then
    .ok { s with
      Secretdata := some ((recoverPolys shares).map (fun r => r.getD 0 0)),
      coefficients := some (recoverPolys shares) }
  else .error .inconsistentShares

lemma dedup_mem_fst (a : GF) : ∀ (l : List (GF × List GF)) (acc : List (GF × List GF)),
    (a ∈ (l.foldl (fun acc sh =>
      if acc.any (fun p => p.1 == sh.1) then acc else acc ++ [sh]) acc).map Prod.fst) ↔
      (a ∈ acc.map Prod.fst ∨ a ∈ l.map Prod.fst) := by
  intro l
  induction l with
  | nil => intro acc; simp
  | cons sh l' ih =>
      intro acc
      rw [List.foldl_cons]
      by_cases h : acc.any (fun p => p.1 == sh.1)
      · rw [if_pos h, ih]
        obtain ⟨p, hp, hpe⟩ := List.any_eq_true.mp h
        have hsh : sh.1 ∈ acc.map Prod.fst :=
          List.mem_map.mpr ⟨p, hp, beq_iff_eq.mp hpe⟩
        simp only [List.map_cons, List.mem_cons]
        constructor
        · rintro (h1 | h1)
          · exact Or.inl h1
          · exact Or.inr (Or.inr h1)
        · rintro (h1 | h1 | h1)
          · exact Or.inl h1
          · exact Or.inl (h1 ▸ hsh)
          · exact Or.inr h1
      · rw [if_neg h, ih]
        simp only [List.map_append, List.map_cons, List.map_nil, List.mem_append,
          List.mem_cons, List.mem_singleton]
        tauto
lemma dedupByX_mem_fst (a : GF) (shares : List (GF × List GF)) :
    a ∈ (dedupByX shares).map Prod.fst ↔ a ∈ shares.map Prod.fst := by
  rw [dedupByX, dedup_mem_fst]
  simp

lemma dedupByX_append_dup (shares : List (GF × List GF)) (sh : GF × List GF)
    (h : sh.1 ∈ shares.map Prod.fst) :
    dedupByX (shares ++ [sh]) = dedupByX shares := by
  rw [dedupByX, List.foldl_append]
  show (if (dedupByX shares).any (fun p => p.1 == sh.1) then dedupByX shares
    else dedupByX shares ++ [sh]) = dedupByX shares
  have hmem : sh.1 ∈ (dedupByX shares).map Prod.fst := (dedupByX_mem_fst _ _).mpr h
  obtain ⟨p, hp, hpe⟩ := List.mem_map.mp hmem
  have hany : ((dedupByX shares).any fun p => p.1 == sh.1) = true :=
    List.any_eq_true.mpr ⟨p, hp, beq_iff_eq.mpr hpe⟩
  rw [if_pos hany]

lemma Recover_insufficient (s : Shamir) (shares : List (GF × List GF))
    (h : (dedupByX shares).length < s.Threshhold) :
    Recover s shares = .error .insufficientShares := by
  simp only [Recover]
  rw [if_pos h]

lemma Recover_run (s : Shamir) (shares : List (GF × List GF))
    (h1 : ¬ (dedupByX shares).length < s.Threshhold)
    (h2 : s.Secretdata = none)
    (h3 : malformedCheck (dedupByX shares) = false)
    (h4 : invalidXCheck (dedupByX shares) = false) :
    Recover s shares =
      if (recoverPolys shares).all (degreeCheck s.Threshhold) then
        .ok { s with
          Secretdata := some ((recoverPolys shares).map (fun r => r.getD 0 0)),
          coefficients := some (recoverPolys shares) }
      else .error .inconsistentShares := by
  simp only [Recover]
  rw [if_neg h1, if_neg (by simp [h2]), if_neg (by simp [h3]), if_neg (by simp [h4])]

lemma degreeCheck_of_length_le {t : Nat} {r : List GF} (h : r.length ≤ t) :
    degreeCheck t r = true := by
  rw [degreeCheck, List.drop_eq_nil_of_le h]
  rfl

lemma degreeCheck_append {t : Nat} {c : List GF} (hc : c.length = t) (pad : Nat) :
    degreeCheck t (c ++ List.replicate pad 0) = true := by
  rw [degreeCheck, ← hc, List.drop_left]
  rw [List.all_eq_true]
  intro x hx
  rw [List.eq_of_mem_replicate hx]
  rfl

lemma getD_append_replicate_zero {c : List GF} {k : Nat} (h : c.length ≤ k) (pad : Nat) :
    (c ++ List.replicate pad 0).getD k 0 = 0 := by
  by_cases hk : k < (c ++ List.replicate pad 0).length
  · rw [List.getD_eq_getElem _ _ hk, List.getElem_append_right (by omega)]
    exact List.getElem_replicate ..
  · exact List.getD_eq_default _ _ (by omega)

lemma recoverPolys_mem_length {shares : List (GF × List GF)} {r : List GF}
    (hr : r ∈ recoverPolys shares) : r.length = (dedupByX shares).length := by
  rw [recoverPolys] at hr
  simp only [List.mem_map] at hr
  obtain ⟨j, _, hj⟩ := hr
  rw [← hj, lagrangeBody_length]
  simp

lemma Recover_exact_threshold (s : Shamir) (shares : List (GF × List GF))
    (h1 : ¬ (dedupByX shares).length < s.Threshhold)
    (h2 : s.Secretdata = none)
    (h3 : malformedCheck (dedupByX shares) = false)
    (h4 : invalidXCheck (dedupByX shares) = false)
    (heq : (dedupByX shares).length = s.Threshhold) :
    ∃ s2, Recover s shares = .ok s2 := by
  rw [Recover_run s shares h1 h2 h3 h4]
  have hall : (recoverPolys shares).all (degreeCheck s.Threshhold) = true := by
    rw [List.all_eq_true]
    intro r hr
    exact degreeCheck_of_length_le (by rw [recoverPolys_mem_length hr, heq])
  rw [if_pos hall]
  exact ⟨_, rfl⟩

lemma Recover_inconsistent_iff (s : Shamir) (shares : List (GF × List GF))
    (h1 : ¬ (dedupByX shares).length < s.Threshhold)
    (h2 : s.Secretdata = none)
    (h3 : malformedCheck (dedupByX shares) = false)
    (h4 : invalidXCheck (dedupByX shares) = false) :
    (Recover s shares = .error .inconsistentShares ↔
      ¬ (recoverPolys shares).all (degreeCheck s.Threshhold) = true) := by
  rw [Recover_run s shares h1 h2 h3 h4]
  by_cases hall : (recoverPolys shares).all (degreeCheck s.Threshhold) = true
  · rw [if_pos hall]
    simp [hall]
  · rw [if_neg hall]
    simp [hall]

/-! ### Concrete byte literals -/

/-- Byte literal helper for concrete instances. -/
def gf (n : Nat) : GF := ⟨n % 256, Nat.mod_lt n (by omega)⟩

lemma evalRec_eq_sum : ∀ (l : List GF) (x : GF),
    evalRec l x = ∑ i ∈ Finset.range l.length, l.getD i 0 * x ^ i := by
  intro l
  induction l with
  | nil => intro x; simp [evalRec]
  | cons c cs ih =>
      intro x
      rw [evalRec, ih, List.length_cons, Finset.sum_range_succ']
      simp only [List.getD_cons_succ, List.getD_cons_zero, pow_zero, mul_one]
      rw [Finset.mul_sum, add_comm]
      congr 1
      refine Finset.sum_congr rfl ?_
      intro i _
      ring

/-- C4: `f` computes, for x in [1,254] and coefficients in increasing-degree
order, the GF(256) sum over i of `coefs[i] * x^i`, via the accumulator and
running-power loop of src/math.go. -/
theorem f_is_horner_sum (x : GF) (hx1 : 1 ≤ x.val) (_hx2 : x.val ≤ 254)
    (coefs : List GF) :
    f x coefs = .ok (∑ i ∈ Finset.range coefs.length, coefs.getD i 0 * x ^ i) := by
  have hx0 : x ≠ 0 := by
    intro h
    rw [h, GF.zero_val] at hx1
    omega
  rw [f_ok x coefs hx0, evalRec_eq_sum]

/-- Witness for C4 at x = 3, coefs = [5, 7]. -/
theorem f_is_horner_sum_witness :
    f (gf 3) [gf 5, gf 7] =
      .ok (∑ i ∈ Finset.range ([gf 5, gf 7] : List GF).length,
        ([gf 5, gf 7] : List GF).getD i 0 * (gf 3) ^ i) :=
  f_is_horner_sum (gf 3) (by decide) (by decide) [gf 5, gf 7]

/-- C5 counterexample: evaluation does not reject x = 255; `f` only checks
x = 0, so `f 255 [1]` succeeds instead of failing with InvalidShareIndex. -/
theorem f_accepts_255 : f (gf 255) [gf 1] = .ok (gf 1) := rfl

/-- C5 (amended): evaluation rejects exactly x = 0 with InvalidShareIndex;
every nonzero x (including 255) is accepted. -/
theorem f_rejects_only_zero (x : GF) (coefs : List GF) :
    (x = 0 → f x coefs = .error .invalidShareIndex) ∧
    (x ≠ 0 → f x coefs = .ok (evalRec coefs x)) :=
  ⟨fun h => by rw [h]; exact f_zero coefs, fun h => f_ok x coefs h⟩

/-- Witness for the amended C5 at x = 255. -/
theorem f_rejects_only_zero_witness :
    f (gf 255) [gf 2] = .ok (evalRec [gf 2] (gf 255)) :=
  (f_rejects_only_zero (gf 255) [gf 2]).2 (by decide)

/-- C6 counterexample: with an empty second operand the result is empty, so
its length is 0 and not `len a + len b - 1 = 1` for `a = [1,1]`, `b = []`. -/
theorem multiply_empty_length_cex :
    ¬ ((multiply_polynomials [gf 1, gf 1] []).length =
      ([gf 1, gf 1] : List GF).length + ([] : List GF).length - 1) := by decide

/-- C6 (amended): `multiply_polynomials` is convolution under field
multiplication: coefficient k is the XOR-sum (GF(256) sum) over i + j = k of
`mul(a[i], b[j])`, and for nonempty `b` the length is
`len a + len b - 1` (for `b = []` the result is `[]`). -/
theorem multiply_is_convolution (a b : List GF) :
    (∀ k, (multiply_polynomials a b).getD k 0 =
      ∑ p ∈ Finset.antidiagonal k, a.getD p.1 0 * b.getD p.2 0) ∧
    (b ≠ [] → (multiply_polynomials a b).length = a.length + b.length - 1) := by
  constructor
  · intro k
    rw [← toPoly_coeff, toPoly_mul, Polynomial.coeff_mul]
    refine Finset.sum_congr rfl ?_
    intro p _
    rw [toPoly_coeff, toPoly_coeff]
  · intro hb
    exact multiply_length a hb

/-- Witness for C6 at the example from the src/math.go comment:
[1,3,4] * [4,5]. -/
theorem multiply_is_convolution_witness :
    (multiply_polynomials [gf 1, gf 3, gf 4] [gf 4, gf 5]).length =
      ([gf 1, gf 3, gf 4] : List GF).length + ([gf 4, gf 5] : List GF).length - 1 :=
  (multiply_is_convolution [gf 1, gf 3, gf 4] [gf 4, gf 5]).2 (by decide)

/-- C9: the two padding steps of `add_polynomials` always equalise the
operand lengths, so the internal panic is unreachable (the function always
returns a value) and the result length is `max (len a) (len b)`. -/
theorem add_polynomials_never_panics (a b : List GF) :
    ∃ r, add_polynomials a b = some r ∧ r.length = max a.length b.length :=
  ⟨addPoly a b, add_polynomials_eq a b, addPoly_length a b⟩

/-- C10: multiplying any polynomial by the empty polynomial yields the empty
polynomial: the loop over the terms of `b` never executes. -/
theorem multiply_empty_right (a : List GF) : multiply_polynomials a [] = [] := rfl

/-- C7: `Recover` deduplicates by x keeping the first occurrence (a later
share with an already-seen x leaves the deduplicated list unchanged), and
fails with InsufficientShares whenever the number of unique-by-x shares is
below the threshold. -/
theorem recover_dedup_insufficient :
    (∀ (shares : List (GF × List GF)) (sh : GF × List GF),
      sh.1 ∈ shares.map Prod.fst → dedupByX (shares ++ [sh]) = dedupByX shares) ∧
    (∀ (s : Shamir) (shares : List (GF × List GF)),
      (dedupByX shares).length < s.Threshhold →
      Recover s shares = .error .insufficientShares) :=
  ⟨dedupByX_append_dup, Recover_insufficient⟩

/-- Witness for C7: a duplicate of x = 1 does not increase the count, and
one unique x plus one duplicate fails a threshold-2 recovery. -/
theorem recover_dedup_insufficient_witness :
    dedupByX ([(gf 1, [gf 3])] ++ [(gf 1, [gf 4])]) = dedupByX [(gf 1, [gf 3])] ∧
    Recover ⟨2, none, none⟩ [(gf 1, [gf 3]), (gf 1, [gf 4])] =
      .error .insufficientShares :=
  ⟨recover_dedup_insufficient.1 [(gf 1, [gf 3])] (gf 1, [gf 4]) (by decide),
   recover_dedup_insufficient.2 ⟨2, none, none⟩ [(gf 1, [gf 3]), (gf 1, [gf 4])]
     (by decide)⟩

/-- C8 counterexample: `New` performs no threshold validation: at the invalid
threshold 0 it succeeds and returns a fully formed session instead of
failing with InvalidThreshold. -/
theorem new_accepts_invalid_threshold :
    New 0 [gf 115] (fun _ _ => gf 0) =
      { Threshhold := 0, Secretdata := some [gf 115],
        coefficients := some [[gf 115]] } := by decide

/-- C8 (amended): `New` never fails: for every threshold (inside or outside
[1,255]) it returns a session holding that threshold, the secret, and one
coefficient list per secret byte whose constant term is the secret byte. -/
theorem new_performs_no_validation (threshold : Nat) (secretdata : List GF)
    (rng : Nat → Nat → GF) :
    (New threshold secretdata rng).Threshhold = threshold ∧
    (New threshold secretdata rng).Secretdata = some secretdata ∧
    ∃ cs, (New threshold secretdata rng).coefficients = some cs ∧
      cs.length = secretdata.length ∧
      ∀ i, i < secretdata.length →
        cs.getD i [] = secretdata.getD i 0 ::
          (List.range (threshold - 1)).map (rng i) := by
  refine ⟨rfl, rfl, _, rfl, by simp, ?_⟩
  intro i hi
  have hlen : i < ((List.range secretdata.length).map (fun b =>
      secretdata.getD b 0 :: (List.range (threshold - 1)).map (rng b))).length := by
    simpa using hi
  rw [List.getD_eq_getElem _ _ hlen, List.getElem_map, List.getElem_range]

/-- Witness for the amended C8 at the out-of-range threshold 300. -/
theorem new_performs_no_validation_witness :
    (New 300 [gf 1] (fun _ _ => gf 9)).Threshhold = 300 :=
  (new_performs_no_validation 300 [gf 1] (fun _ _ => gf 9)).1

/-- C2: degree-consistency check.  With strictly more genuine shares than the
threshold, every coefficient of the interpolated vector at index at least
`threshold` is zero and the check passes; when `Recover` reaches the check,
it fails with InconsistentShares exactly when some byte position has a
nonzero such coefficient; with exactly `threshold` unique shares the check
is vacuous and reconstruction proceeds unconditionally. -/
theorem degree_consistency :
    (∀ (t : Nat) (coefs xs : List GF), coefs.length = t → t < xs.length → xs.Nodup →
      (∀ k, t ≤ k →
        ((full_lagrange xs (xs.map (fun x => evalRec coefs x))).getD []).getD k 0 = 0) ∧
      degreeCheck t ((full_lagrange xs (xs.map (fun x => evalRec coefs x))).getD [])
        = true) ∧
    (∀ (s : Shamir) (shares : List (GF × List GF)),
      ¬ (dedupByX shares).length < s.Threshhold → s.Secretdata = none →
      malformedCheck (dedupByX shares) = false →
      invalidXCheck (dedupByX shares) = false →
      (Recover s shares = .error .inconsistentShares ↔
        ¬ (recoverPolys shares).all (degreeCheck s.Threshhold) = true)) ∧
    (∀ (s : Shamir) (shares : List (GF × List GF)),
      ¬ (dedupByX shares).length < s.Threshhold → s.Secretdata = none →
      malformedCheck (dedupByX shares) = false →
      invalidXCheck (dedupByX shares) = false →
      (dedupByX shares).length = s.Threshhold →
      ∃ s2, Recover s shares = .ok s2) := by
  refine ⟨?_, Recover_inconsistent_iff, Recover_exact_threshold⟩
  intro t coefs xs hct htn hnd
  have hle : coefs.length ≤ xs.length := by omega
  have hfl := full_lagrange_genuine coefs xs hnd hle
  rw [hfl]
  constructor
  · intro k hk
    rw [Option.getD_some]
    exact getD_append_replicate_zero (by omega) _
  · rw [Option.getD_some]
    exact degreeCheck_append hct _

/-- Witness for C2: a genuine threshold-1 setup with two shares has zero
high coefficient; a tampered pair makes Recover fail InconsistentShares;
exactly one share at threshold 1 recovers unconditionally. -/
theorem degree_consistency_witness :
    ((full_lagrange [gf 1, gf 2]
      ([gf 1, gf 2].map (fun x => evalRec [gf 7] x))).getD []).getD 1 0 = 0 ∧
    Recover ⟨1, none, none⟩ [(gf 1, [gf 0]), (gf 2, [gf 1])] =
      .error .inconsistentShares ∧
    ∃ s2, Recover ⟨1, none, none⟩ [(gf 1, [gf 5])] = .ok s2 := by
  refine ⟨(degree_consistency.1 1 [gf 7] [gf 1, gf 2] (by decide) (by decide)
      (by decide)).1 1 (by decide), ?_, ?_⟩
  · exact (degree_consistency.2.1 ⟨1, none, none⟩ [(gf 1, [gf 0]), (gf 2, [gf 1])]
      (by decide) rfl (by decide) (by decide)).mpr (by decide)
  · exact degree_consistency.2.2 ⟨1, none, none⟩ [(gf 1, [gf 5])]
      (by decide) rfl (by decide) (by decide) (by decide)

/-- C3: for equal-length point lists with pairwise-distinct x coordinates,
`full_lagrange` returns a coefficient vector of length exactly n denoting
the unique polynomial of degree below n passing through all n points. -/
theorem full_lagrange_unique_interpolation (xs fxs : List GF)
    (hlen : xs.length = fxs.length) (hnd : xs.Nodup) :
    ∃ r, full_lagrange xs fxs = some r ∧ r.length = fxs.length ∧
      (toPoly r).degree < (fxs.length : Nat) ∧
      (∀ i, i < fxs.length → (toPoly r).eval (xs.getD i 0) = fxs.getD i 0) ∧
      (∀ q : Polynomial GF, q.degree < (fxs.length : Nat) →
        (∀ i, i < fxs.length → q.eval (xs.getD i 0) = fxs.getD i 0) →
        q = toPoly r) := by
  refine ⟨lagrangeBody xs fxs, full_lagrange_some xs fxs hlen,
    lagrangeBody_length xs fxs, ?_, lagrangeBody_eval_nodes xs fxs hlen hnd,
    lagrangeBody_unique xs fxs hlen hnd⟩
  rw [lagrangeBody_eq_interpolate]
  have hvs : Set.InjOn (fun k => xs.getD k 0) (Finset.range fxs.length) := by
    rw [← hlen]
    exact getD_injOn_range hnd
  have h := Lagrange.degree_interpolate_lt (fun k => fxs.getD k 0) hvs
  rwa [Finset.card_range] at h

/-- Witness for C3 at the points (1,5), (2,9). -/
theorem full_lagrange_unique_interpolation_witness :
    ∃ r, full_lagrange [gf 1, gf 2] [gf 5, gf 9] = some r ∧
      r.length = ([gf 5, gf 9] : List GF).length ∧
      (toPoly r).degree < (([gf 5, gf 9] : List GF).length : Nat) ∧
      (∀ i, i < ([gf 5, gf 9] : List GF).length →
        (toPoly r).eval (([gf 1, gf 2] : List GF).getD i 0) =
          ([gf 5, gf 9] : List GF).getD i 0) ∧
      (∀ q : Polynomial GF, q.degree < (([gf 5, gf 9] : List GF).length : Nat) →
        (∀ i, i < ([gf 5, gf 9] : List GF).length →
          q.eval (([gf 1, gf 2] : List GF).getD i 0) =
            ([gf 5, gf 9] : List GF).getD i 0) →
        q = toPoly r) :=
  full_lagrange_unique_interpolation [gf 1, gf 2] [gf 5, gf 9] (by decide) (by decide)

/-- C1: round-trip.  For threshold t in [2,10], a secret of at most 64
bytes, per-byte coefficient lists of length t whose constant terms are the
secret bytes, and t distinct share indices in [1,254]: evaluating each
per-byte polynomial at the t indices succeeds, interpolating the resulting
t (x, f(x)) pairs returns exactly the original coefficient vector, its
constant term is the secret byte, and every share computed at any valid x
from the recovered coefficients agrees with the one computed from the
original coefficients (so previously computed shares validate true against
the recovered session). -/
theorem round_trip (t : Nat) (_ht1 : 2 ≤ t) (_ht2 : t ≤ 10)
    (secret : List GF) (_hs : secret.length ≤ 64)
    (coefs : List (List GF)) (_hcl : coefs.length = secret.length)
    (hct : ∀ c ∈ coefs, c.length = t)
    (hch : ∀ i, i < coefs.length → (coefs.getD i []).getD 0 0 = secret.getD i 0)
    (xs : List GF) (hxl : xs.length = t) (hnd : xs.Nodup)
    (hxr : ∀ x ∈ xs, 1 ≤ x.val ∧ x.val ≤ 254) :
    ∀ i, i < coefs.length →
      xs.map (fun x => f x (coefs.getD i [])) =
        (xs.map (fun x => evalRec (coefs.getD i []) x)).map Except.ok ∧
      full_lagrange xs (xs.map (fun x => evalRec (coefs.getD i []) x)) =
        some (coefs.getD i []) ∧
      ((full_lagrange xs (xs.map (fun x => evalRec (coefs.getD i []) x))).getD
        []).getD 0 0 = secret.getD i 0 ∧
      (∀ x' : GF, x' ≠ 0 →
        f x' ((full_lagrange xs
          (xs.map (fun x => evalRec (coefs.getD i []) x))).getD []) =
          f x' (coefs.getD i [])) := by
  intro i hi
  have hcmem : coefs.getD i [] ∈ coefs := by
    rw [List.getD_eq_getElem _ _ hi]
    exact List.getElem_mem hi
  have hclen : (coefs.getD i []).length = t := hct _ hcmem
  have hle : (coefs.getD i []).length ≤ xs.length := by omega
  have hfl : full_lagrange xs (xs.map (fun x => evalRec (coefs.getD i []) x)) =
      some (coefs.getD i []) := by
    have h := full_lagrange_genuine (coefs.getD i []) xs hnd hle
    rwa [show xs.length - (coefs.getD i []).length = 0 by omega,
      List.replicate_zero, List.append_nil] at h
  refine ⟨?_, hfl, ?_, ?_⟩
  · rw [List.map_map]
    refine List.map_congr_left ?_
    intro x hx
    have hx0 : x ≠ 0 := by
      intro h0
      have h1 := (hxr x hx).1
      rw [h0, GF.zero_val] at h1
      omega
    exact f_ok x _ hx0
  · rw [hfl, Option.getD_some]
    exact hch i hi
  · intro x' _
    rw [hfl, Option.getD_some]

/-- Witness for C1: threshold 2, secret [115], coefficients [115, 7],
shares at x = 1 and x = 2. -/
theorem round_trip_witness :
    full_lagrange [gf 1, gf 2]
      ([gf 1, gf 2].map (fun x => evalRec [gf 115, gf 7] x)) =
      some [gf 115, gf 7] :=
  ((round_trip 2 (by decide) (by decide) [gf 115] (by decide)
    [[gf 115, gf 7]] (by decide) (by decide) (by decide)
    [gf 1, gf 2] (by decide) (by decide) (by decide)) 0 (by decide)).2.1

end SSS
